import Mathlib

/-!
Verification of the batch-compression worker of `Simple-Image-Compressor.py`
(`CompressionWorker.run` / `CompressionWorker.stop`) and the relevant parts of
`ClarityCompressApp` (`start_compression`, `on_compression_finished`).

The worker loop is embedded as a pure function from

  * the input list (each item carrying the per-item outcome of the `try`
    block: full success with both byte sizes, an exception before the input
    size was read, or an exception after the input size was read), and
  * a cancellation point modelling the `is_running` flag (the flag is set to
    `False` once by `stop()` and never reset during a run, so the observations
    at the iteration boundaries form a monotone boolean sequence: reading
    `true` at every boundary `i < c` and `false` from `c` on, or `true`
    forever);

to the list of emitted events (`status_updated`, `progress_updated`,
`finished`).

Python's `int(((i + 1) / total_files) * 100)` is evaluated in IEEE-754
binary64 arithmetic; both operations are modelled exactly by correct rounding
to 53 significant bits (round half to even) over `ℚ`.  The magnitudes that
occur (quotients in (0, 100]) are far inside the normal range, so neither
overflow nor subnormal rounding can occur and the fixed-precision model is
exact.  Sizes are measured by `os.path.getsize` in whole bytes and divided by
1024 (an exact power of two) before accumulation; `n / 1024` is exactly
representable in binary64 for every `n < 2 ^ 53`, and the running float sums
stay exact as long as the totals stay below `2 ^ 43` KB (8 TB), so the size
accounting is modelled by exact rational arithmetic.
-/

/-- Fuel-based floor-log2 on `ℕ` (structural recursion, kernel-reducible).
`lg2F fuel n` halves `n` until it reaches `0` or `1`; `fuel ≥ n` suffices. -/
def lg2F : ℕ → ℕ → ℕ
  | 0, _ => 0
  | fuel+1, n => if n ≤ 1 then 0 else lg2F fuel (n / 2) + 1

/-- Floor of the base-2 logarithm of a positive natural number. -/
def lg2 (n : ℕ) : ℕ := lg2F n n

/-- The rational `2 ^ n` for an integer exponent, written without `ℚ`
division so that it evaluates. -/
def pow2 (n : ℤ) : ℚ := if 0 ≤ n then ((2 ^ n.toNat : ℕ) : ℚ) else mkRat 1 (2 ^ (-n).toNat)

/-- Floor of the base-2 logarithm of a positive rational number. -/
def qlog2 (x : ℚ) : ℤ :=
  let a : ℤ := lg2 x.num.natAbs
  let b : ℤ := lg2 x.den
  if pow2 (a - b) ≤ x then a - b else a - b - 1

/-- Round a rational to the nearest integer, ties to even (IEEE-754 default). -/
def rhe (z : ℚ) : ℤ :=
  let n := ⌊z⌋
  if z - n < 1/2 then n
  else if (1:ℚ)/2 < z - n then n + 1
  else if n % 2 = 0 then n else n + 1

/-- Correct rounding of a positive rational to 53 significant bits: the
binary64 (double precision) result of an exact real operation whose value is
a normal, non-overflowing positive number.  Nonpositive arguments do not
occur in the program; they are mapped to `0`. -/
def rnd (x : ℚ) : ℚ :=
  if x ≤ 0 then 0
  else ((rhe (x * pow2 (52 - qlog2 x)) : ℤ) : ℚ) * pow2 (qlog2 x - 52)

/-- Binary64 division of two exactly-represented operands (Python `/`). -/
def fdiv (a b : ℚ) : ℚ := rnd (a / b)

/-- Binary64 multiplication of two exactly-represented operands (Python `*`). -/
def fmul (a b : ℚ) : ℚ := rnd (a * b)

/-- Python `int()` applied to a float: truncation toward zero. -/
def truncQ (x : ℚ) : ℤ := if x < 0 then -⌊-x⌋ else ⌊x⌋

/-- The value `int(((i + 1) / total_files) * 100)` from line 69 of the source, in
binary64 arithmetic.  Only evaluated with `1 ≤ total` (the loop body is
never reached when the input list is empty). -/
def progressPercent (total i : ℕ) : ℕ :=
  (truncQ (fmul (fdiv ((i : ℚ) + 1) (total : ℚ)) 100)).toNat

/-- Outcome of the `try` block (lines 38-66) for one input file, as far as the
accumulators can observe it.  `os.path.getsize(file_path)` is the first
statement that can raise; every later failure point (`Image.open`, `save`,
`os.path.getsize(output_path)`) comes after `original_size_total` was already
increased, and `compressed_size_total` / `compressed_count` are only reached
when everything succeeded.  Sizes are in whole bytes. -/
inductive ItemOutcome where
  | success (origSize compSize : ℕ)
  | failEarly (msg : String)
  | failLate (origSize : ℕ) (msg : String)
deriving DecidableEq, Repr

/-- One entry of `self.image_paths` together with its processing outcome. -/
structure InputItem where
  file_path : String
  outcome : ItemOutcome
deriving DecidableEq, Repr

/-- POSIX `os.path.basename`: the part after the last slash. -/
def basename (path : String) : String := (path.splitOn "/").getLastD ""

/-- The three signals of `CompressionWorker`, in emission order.  `completed`
is the `finished` signal; its totals are the float accumulators (KB). -/
inductive JobEvent where
  | statusChanged (message : String)
  | progressChanged (percent : ℕ)
  | completed (processedCount : ℕ) (originalSizeTotal compressedSizeTotal : ℚ)
deriving DecidableEq, Repr

/-- The three accumulators of `CompressionWorker.run` (lines 28-30). -/
structure RunState where
  compressed_count : ℕ
  original_size_total : ℚ
  compressed_size_total : ℚ
deriving DecidableEq, Repr

/-- Initial accumulator values (lines 28-30). -/
def initState : RunState := ⟨0, 0, 0⟩

/-- Kilobyte value `n / 1024` — `os.path.getsize(...) / 1024  # in KB` (lines 39, 61).
Exact in binary64 for `n < 2 ^ 53`. -/
def kb (n : ℕ) : ℚ := (n : ℚ) / 1024

/-- Accumulator update of one loop iteration (lines 38-66): on success both
totals and the count advance; a failure before the input size was read leaves
the state unchanged; a failure after it has already added the original size. -/
def applyItem (s : RunState) (item : InputItem) : RunState :=
  match item.outcome with
  | .success o c =>
      ⟨s.compressed_count + 1, s.original_size_total + kb o, s.compressed_size_total + kb c⟩
  | .failEarly _ => s
  | .failLate o _ =>
      ⟨s.compressed_count, s.original_size_total + kb o, s.compressed_size_total⟩

/-- Events emitted by one non-cancelled loop iteration at index `i` (lines
36-70): the "Compressing" status, then on failure the error status (line 66),
then the progress update (lines 69-70). -/
def itemEvents (total i : ℕ) (item : InputItem) : List JobEvent :=
  JobEvent.statusChanged ("Compressing: " ++ basename item.file_path) ::
    (match item.outcome with
     | .success _ _ => []
     | .failEarly msg =>
         [JobEvent.statusChanged ("Error compressing " ++ basename item.file_path ++ ": " ++ msg)]
     | .failLate _ msg =>
         [JobEvent.statusChanged ("Error compressing " ++ basename item.file_path ++ ": " ++ msg)])
    ++ [JobEvent.progressChanged (progressPercent total i)]

/-- Value of `self.is_running` as observed at iteration boundary `i` (line
33).  `stop()` (lines 74-76) sets the flag to `False` exactly once and it is
never reset during a run, so the observed values are `true` below some
threshold `c` and `false` from `c` on (`cancelAt = some c`), or always `true`
(`cancelAt = none`). -/
def isRunningAt (cancelAt : Option ℕ) (i : ℕ) : Bool :=
  match cancelAt with
  | none => true
  | some c => decide (i < c)

/-- The `for i, file_path in enumerate(self.image_paths)` loop of
`CompressionWorker.run` (lines 32-70), returning the final accumulator state
and the emitted events.  `total` is `total_files = len(self.image_paths)`
(line 27), fixed before the loop. -/
def runLoop (total : ℕ) (cancelAt : Option ℕ) :
    ℕ → List InputItem → RunState → RunState × List JobEvent
  | _, [], s => (s, [])
  | i, item :: rest, s =>
    if isRunningAt cancelAt i then
      let next := runLoop total cancelAt (i + 1) rest (applyItem s item)
      (next.1, itemEvents total i item ++ next.2)
    else (s, [])

/-- Model of `CompressionWorker.run` (lines 25-72): run the loop over the whole input
list, then emit the single `finished` signal (line 72). -/
def run (items : List InputItem) (cancelAt : Option ℕ) : List JobEvent :=
  let final := runLoop items.length cancelAt 0 items initState
  final.2 ++
    [JobEvent.completed final.1.compressed_count final.1.original_size_total
      final.1.compressed_size_total]

/-- The accumulator state at the end of the loop. -/
def runFinal (items : List InputItem) (cancelAt : Option ℕ) : RunState :=
  (runLoop items.length cancelAt 0 items initState).1

/-- Whether the `try` block ran to completion for this item. -/
def ItemOutcome.isSuccess : ItemOutcome → Bool
  | .success _ _ => true
  | _ => false

/-- Whether `os.path.getsize(file_path)` succeeded for this item (on success
and on a late failure the original size was read and accumulated). -/
def ItemOutcome.readOrig : ItemOutcome → Bool
  | .failEarly _ => false
  | _ => true

/-- The input size in bytes that was read for this item (0 when the read
itself failed). -/
def ItemOutcome.origBytes : ItemOutcome → ℕ
  | .success o _ => o
  | .failLate o _ => o
  | .failEarly _ => 0

/-- The output size in bytes measured for this item (0 unless it succeeded). -/
def ItemOutcome.compBytes : ItemOutcome → ℕ
  | .success _ c => c
  | _ => 0

/-- The exception message carried by a failing outcome. -/
def ItemOutcome.failMsg : ItemOutcome → Option String
  | .success _ _ => none
  | .failEarly m => some m
  | .failLate _ m => some m

/-- The items of `l` that were fully processed. -/
def succItems (l : List InputItem) : List InputItem :=
  l.filter fun it => it.outcome.isSuccess

/-- The items of `l` whose input size was read. -/
def readItems (l : List InputItem) : List InputItem :=
  l.filter fun it => it.outcome.readOrig

/-- Sum of the accumulated original sizes (KB) over a list of items:
`kb origBytes` over the items whose size read succeeded. -/
def origKBsum (l : List InputItem) : ℚ :=
  ((readItems l).map fun it => kb it.outcome.origBytes).sum

/-- Sum of the accumulated compressed sizes (KB): `kb compBytes` over the
fully processed items. -/
def compKBsum (l : List InputItem) : ℚ :=
  ((succItems l).map fun it => kb it.outcome.compBytes).sum

/-- The sum claimed by the specification for `originalSizeTotal`: original
sizes (KB) of exactly the items that succeeded. -/
def succOrigKBsum (l : List InputItem) : ℚ :=
  ((succItems l).map fun it => kb it.outcome.origBytes).sum

/-- Total of the original sizes in whole bytes over the items whose size read
succeeded. -/
def origBytesSum (l : List InputItem) : ℕ :=
  ((readItems l).map fun it => it.outcome.origBytes).sum

/-- Total of the measured output sizes in whole bytes over the fully
processed items. -/
def compBytesSum (l : List InputItem) : ℕ :=
  ((succItems l).map fun it => it.outcome.compBytes).sum

/-- The part of the input list the loop iterates over before observing the
cancellation flag, when iteration starts at boundary `i`. -/
def procSeg (cancelAt : Option ℕ) (i : ℕ) (items : List InputItem) : List InputItem :=
  match cancelAt with
  | none => items
  | some c => items.take (c - i)

/-- Concatenation of the per-iteration event blocks, indices starting at `i`. -/
def eventsOf (total : ℕ) : ℕ → List InputItem → List JobEvent
  | _, [] => []
  | i, item :: rest => itemEvents total i item ++ eventsOf total (i + 1) rest

/-- Recogniser for `statusChanged` events. -/
def isStatusB : JobEvent → Bool
  | .statusChanged _ => true
  | _ => false

/-- Recogniser for `progressChanged` events. -/
def isProgressB : JobEvent → Bool
  | .progressChanged _ => true
  | _ => false

/-- Recogniser for the terminal `completed` event. -/
def isCompletedB : JobEvent → Bool
  | .completed _ _ _ => true
  | _ => false

/-- The percent payload of a `progressChanged` event. -/
def progressOf : JobEvent → Option ℕ
  | .progressChanged p => some p
  | _ => none

/-- The sequence of emitted progress percentages, in order. -/
def progressValuesOf (evs : List JobEvent) : List ℕ := evs.filterMap progressOf

/-- Result of one call to `ClarityCompressApp.start_compression` (lines
178-194).  `alreadyRunningError` never occurs in the code; the constructor
exists so that the specification's claimed error can be stated. -/
inductive StartOutcome where
  | warnNoImages
  | warnNoSaveLocation
  | started
  | alreadyRunningError
deriving DecidableEq, Repr

/-- The application state `start_compression` can read: the selected files,
the chosen output directory, and whether a previously started worker thread
is still running. -/
structure AppState where
  image_files : List String
  output_directory : String
  worker_running : Bool
deriving DecidableEq, Repr

/-- Model of `ClarityCompressApp.start_compression` (lines 178-194): warn when no
images or no save location are selected, otherwise disable the buttons and
construct and start a new worker.  The code never consults
`worker_running`. -/
def start_compression (st : AppState) : StartOutcome :=
  if st.image_files.isEmpty then StartOutcome.warnNoImages
  else if st.output_directory = "" then StartOutcome.warnNoSaveLocation
  else StartOutcome.started

/-- The `reduction_kb` computation of `on_compression_finished` (line 207). -/
def reduction_kb (original compressed : ℚ) : ℚ := original - compressed

/-- The `reduction_percent` computation of `on_compression_finished` (line 208). -/
def reduction_percent (original compressed : ℚ) : ℚ :=
  if 0 < original then reduction_kb original compressed / original * 100 else 0

theorem lg2F_bounds : ∀ (fuel n : ℕ), 1 ≤ n → n ≤ fuel →
    2 ^ (lg2F fuel n) ≤ n ∧ n < 2 ^ (lg2F fuel n + 1) := by
  intro fuel
  induction fuel with
  | zero => intro n h1 h2; omega
  | succ f ih =>
    intro n h1 h2
    simp only [lg2F]
    by_cases hn : n ≤ 1
    · have : n = 1 := by omega
      simp [hn, this]
    · simp only [if_neg hn]
      have hrec := ih (n / 2) (by omega) (by omega)
      have h2le : 2 ^ (lg2F f (n / 2)) ≤ n / 2 := hrec.1
      have h2lt : n / 2 < 2 ^ (lg2F f (n / 2) + 1) := hrec.2
      constructor
      · have : 2 ^ (lg2F f (n / 2) + 1) = 2 * 2 ^ (lg2F f (n / 2)) := by ring
        rw [this]; omega
      · have : 2 ^ (lg2F f (n / 2) + 1 + 1) = 2 * 2 ^ (lg2F f (n / 2) + 1) := by ring
        rw [this]; omega

theorem lg2_bounds (n : ℕ) (h : 1 ≤ n) : 2 ^ (lg2 n) ≤ n ∧ n < 2 ^ (lg2 n + 1) :=
  lg2F_bounds n n h le_rfl

theorem pow2_eq_zpow (n : ℤ) : pow2 n = (2 : ℚ) ^ n := by
  unfold pow2
  split_ifs with h
  · push_cast
    rw [← zpow_natCast (2 : ℚ), Int.toNat_of_nonneg h]
  · have hk : (((-n).toNat : ℕ) : ℤ) = -n := Int.toNat_of_nonneg (by omega)
    rw [Rat.mkRat_eq_div]
    push_cast
    rw [← zpow_natCast (2 : ℚ), hk, one_div, ← zpow_neg, neg_neg]

theorem pow2_pos (n : ℤ) : 0 < pow2 n := by
  rw [pow2_eq_zpow]; positivity

theorem pow2_add (m n : ℤ) : pow2 (m + n) = pow2 m * pow2 n := by
  rw [pow2_eq_zpow, pow2_eq_zpow, pow2_eq_zpow]
  exact zpow_add₀ (by norm_num) m n

theorem pow2_mono {m n : ℤ} (h : m ≤ n) : pow2 m ≤ pow2 n := by
  rw [pow2_eq_zpow, pow2_eq_zpow]
  exact zpow_le_zpow_right₀ one_le_two h

theorem pow2_lt_iff {m n : ℤ} : pow2 m < pow2 n ↔ m < n := by
  rw [pow2_eq_zpow, pow2_eq_zpow]
  exact zpow_lt_zpow_iff_right₀ one_lt_two

theorem pow2_natCast (k : ℕ) : pow2 (k : ℤ) = ((2 ^ k : ℕ) : ℚ) := by
  rw [pow2_eq_zpow]
  push_cast
  rw [← zpow_natCast (2 : ℚ)]

theorem qlog2_spec (x : ℚ) (hx : 0 < x) :
    pow2 (qlog2 x) ≤ x ∧ x < pow2 (qlog2 x + 1) := by
  simp only [qlog2]
  have hnumpos : 0 < x.num := Rat.num_pos.mpr hx
  have hnum : 1 ≤ x.num.natAbs := by omega
  have hden : 1 ≤ x.den := x.den_pos
  obtain ⟨ha1, ha2⟩ := lg2_bounds _ hnum
  obtain ⟨hb1, hb2⟩ := lg2_bounds _ hden
  have hxeq : x = (x.num.natAbs : ℚ) / (x.den : ℚ) := by
    rw [Int.cast_natAbs]
    rw [abs_of_pos (by exact_mod_cast hnumpos)]
    exact (Rat.num_div_den x).symm
  have hdenq : (0 : ℚ) < (x.den : ℚ) := by exact_mod_cast hden
  set a : ℤ := (lg2 x.num.natAbs : ℤ) with hadef
  set b : ℤ := (lg2 x.den : ℤ) with hbdef
  have hp1 : pow2 a ≤ (x.num.natAbs : ℚ) := by
    rw [pow2_natCast (lg2 x.num.natAbs)]; exact_mod_cast ha1
  have hp2 : (x.num.natAbs : ℚ) < pow2 (a + 1) := by
    have : (a : ℤ) + 1 = ((lg2 x.num.natAbs + 1 : ℕ) : ℤ) := by push_cast; ring
    rw [this, pow2_natCast]; exact_mod_cast ha2
  have hq1 : pow2 b ≤ (x.den : ℚ) := by
    rw [pow2_natCast (lg2 x.den)]; exact_mod_cast hb1
  have hq2 : (x.den : ℚ) < pow2 (b + 1) := by
    have : (b : ℤ) + 1 = ((lg2 x.den + 1 : ℕ) : ℤ) := by push_cast; ring
    rw [this, pow2_natCast]; exact_mod_cast hb2
  have hupper : x < pow2 (a - b + 1) := by
    rw [hxeq, div_lt_iff₀ hdenq]
    calc (x.num.natAbs : ℚ) < pow2 (a + 1) := hp2
      _ = pow2 (a - b + 1) * pow2 b := by rw [← pow2_add]; ring_nf
      _ ≤ pow2 (a - b + 1) * (x.den : ℚ) := by
          exact mul_le_mul_of_nonneg_left hq1 (pow2_pos _).le
  have hlower : pow2 (a - b - 1) ≤ x := by
    rw [hxeq, le_div_iff₀ hdenq]
    calc pow2 (a - b - 1) * (x.den : ℚ) ≤ pow2 (a - b - 1) * pow2 (b + 1) := by
          exact mul_le_mul_of_nonneg_left hq2.le (pow2_pos _).le
      _ = pow2 a := by rw [← pow2_add]; ring_nf
      _ ≤ (x.num.natAbs : ℚ) := hp1
  split_ifs with hcase
  · exact ⟨hcase, hupper⟩
  · constructor
    · exact hlower
    · have : a - b - 1 + 1 = a - b := by ring
      rw [this]
      exact lt_of_not_le hcase

theorem qlog2_unique (x : ℚ) (e : ℤ) (hx : 0 < x)
    (h1 : pow2 e ≤ x) (h2 : x < pow2 (e + 1)) : qlog2 x = e := by
  obtain ⟨g1, g2⟩ := qlog2_spec x hx
  by_contra hne
  rcases lt_or_gt_of_ne hne with hlt | hgt
  · have : pow2 (qlog2 x + 1) ≤ pow2 e := pow2_mono (by omega)
    linarith
  · have : pow2 (e + 1) ≤ pow2 (qlog2 x) := pow2_mono (by omega)
    linarith

theorem rhe_ge_floor (z : ℚ) : ⌊z⌋ ≤ rhe z := by
  simp only [rhe]
  split_ifs <;> omega

theorem rhe_le_floor_add_one (z : ℚ) : rhe z ≤ ⌊z⌋ + 1 := by
  simp only [rhe]
  split_ifs <;> omega

theorem rhe_close (z : ℚ) : |(rhe z : ℚ) - z| ≤ 1 / 2 := by
  have h1 := Int.floor_le z
  have h2 := Int.lt_floor_add_one z
  simp only [rhe]
  split_ifs with ha hb hc <;>
    rw [abs_le] <;> constructor <;> push_cast at * <;> linarith

theorem rhe_intCast (n : ℤ) : rhe ((n : ℚ)) = n := by
  simp [rhe]

theorem rhe_mono {z w : ℚ} (h : z ≤ w) : rhe z ≤ rhe w := by
  have hfl : ⌊z⌋ ≤ ⌊w⌋ := Int.floor_le_floor h
  rcases eq_or_lt_of_le hfl with heq | hlt
  · simp only [rhe]
    rw [← heq]
    split_ifs with h1 h2 h3 h4 h5 h6 h7 <;>
      first
        | omega
        | (exfalso; push_cast at *; linarith)
  · calc rhe z ≤ ⌊z⌋ + 1 := rhe_le_floor_add_one z
      _ ≤ ⌊w⌋ := by omega
      _ ≤ rhe w := rhe_ge_floor w

theorem rnd_pos_eq (x : ℚ) (hx : 0 < x) :
    rnd x = ((rhe (x * pow2 (52 - qlog2 x)) : ℤ) : ℚ) * pow2 (qlog2 x - 52) := by
  unfold rnd
  rw [if_neg (not_le.mpr hx)]

theorem rnd_scaled_bounds (x : ℚ) (hx : 0 < x) :
    pow2 52 ≤ x * pow2 (52 - qlog2 x) ∧ x * pow2 (52 - qlog2 x) < pow2 53 := by
  obtain ⟨h1, h2⟩ := qlog2_spec x hx
  constructor
  · calc pow2 52 = pow2 (qlog2 x) * pow2 (52 - qlog2 x) := by
          rw [← pow2_add]; ring_nf
      _ ≤ x * pow2 (52 - qlog2 x) :=
          mul_le_mul_of_nonneg_right h1 (pow2_pos _).le
  · calc x * pow2 (52 - qlog2 x) < pow2 (qlog2 x + 1) * pow2 (52 - qlog2 x) :=
          (mul_lt_mul_right (pow2_pos _)).mpr h2
      _ = pow2 53 := by rw [← pow2_add]; ring_nf

theorem rnd_err (x : ℚ) (hx : 0 < x) : |rnd x - x| ≤ x * pow2 (-53) := by
  obtain ⟨he1, _⟩ := qlog2_spec x hx
  rw [rnd_pos_eq x hx]
  set e := qlog2 x with hedef
  set z := x * pow2 (52 - e) with hzdef
  have hxz : ((rhe z : ℤ) : ℚ) * pow2 (e - 52) - x = ((rhe z : ℚ) - z) * pow2 (e - 52) := by
    rw [sub_mul]
    congr 1
    rw [hzdef, mul_assoc, ← pow2_add]
    have h0 : 52 - e + (e - 52) = 0 := by ring
    rw [h0]
    have h1 : pow2 0 = 1 := by rw [pow2_eq_zpow]; norm_num
    rw [h1, mul_one]
  rw [hxz, abs_mul, abs_of_pos (pow2_pos _)]
  have hhalf : (1 : ℚ) / 2 = pow2 (-1) := by
    rw [pow2_eq_zpow]; norm_num
  calc |(rhe z : ℚ) - z| * pow2 (e - 52) ≤ (1 / 2) * pow2 (e - 52) :=
        mul_le_mul_of_nonneg_right (rhe_close _) (pow2_pos _).le
    _ = pow2 e * pow2 (-53) := by
        rw [hhalf, ← pow2_add, ← pow2_add]
        ring_nf
    _ ≤ x * pow2 (-53) := mul_le_mul_of_nonneg_right he1 (pow2_pos _).le

theorem rnd_le_mul (x : ℚ) (hx : 0 < x) : rnd x ≤ x * (1 + pow2 (-53)) := by
  have h := (abs_le.mp (rnd_err x hx)).2
  nlinarith [pow2_pos (-53)]

theorem rnd_ge_mul (x : ℚ) (hx : 0 < x) : x * (1 - pow2 (-53)) ≤ rnd x := by
  have h := (abs_le.mp (rnd_err x hx)).1
  nlinarith [pow2_pos (-53)]

theorem pow2_neg53_lt_one : pow2 (-53) < 1 := by
  have : pow2 (-53) < pow2 0 := pow2_lt_iff.mpr (by norm_num)
  have h0 : pow2 0 = 1 := by rw [pow2_eq_zpow]; norm_num
  linarith

theorem rnd_pos (x : ℚ) (hx : 0 < x) : 0 < rnd x := by
  have h := rnd_ge_mul x hx
  have h1 := pow2_neg53_lt_one
  nlinarith

theorem pow2_zero : pow2 0 = 1 := by
  rw [pow2_eq_zpow]; norm_num

theorem pow2_ofNat (k : ℕ) : pow2 (k : ℤ) = (2 : ℚ) ^ k := by
  rw [pow2_eq_zpow, zpow_natCast]

theorem rnd_mono {x y : ℚ} (hx : 0 < x) (hxy : x ≤ y) : rnd x ≤ rnd y := by
  have hy : 0 < y := lt_of_lt_of_le hx hxy
  obtain ⟨hx1, hx2⟩ := qlog2_spec x hx
  obtain ⟨hy1, hy2⟩ := qlog2_spec y hy
  have hee : qlog2 x ≤ qlog2 y := by
    by_contra hc
    push_neg at hc
    have : pow2 (qlog2 y + 1) ≤ pow2 (qlog2 x) := pow2_mono (by omega)
    linarith
  rw [rnd_pos_eq x hx, rnd_pos_eq y hy]
  rcases eq_or_lt_of_le hee with heq | hlt
  · rw [← heq]
    have hz : x * pow2 (52 - qlog2 x) ≤ y * pow2 (52 - qlog2 x) :=
      mul_le_mul_of_nonneg_right hxy (pow2_pos _).le
    have hr := rhe_mono hz
    exact mul_le_mul_of_nonneg_right (by exact_mod_cast hr) (pow2_pos _).le
  · have hzxlt : x * pow2 (52 - qlog2 x) < pow2 53 := (rnd_scaled_bounds x hx).2
    have hzyge : pow2 52 ≤ y * pow2 (52 - qlog2 y) := (rnd_scaled_bounds y hy).1
    have hp53 : pow2 53 = ((2 : ℚ) ^ (53 : ℕ)) := pow2_ofNat 53
    have hp52 : pow2 52 = ((2 : ℚ) ^ (52 : ℕ)) := pow2_ofNat 52
    have hrx : rhe (x * pow2 (52 - qlog2 x)) ≤ 2 ^ 53 := by
      have h1 : ⌊x * pow2 (52 - qlog2 x)⌋ < (2 : ℤ) ^ 53 := by
        rw [Int.floor_lt]
        calc x * pow2 (52 - qlog2 x) < pow2 53 := hzxlt
          _ = (((2 : ℤ) ^ 53 : ℤ) : ℚ) := by rw [hp53]; push_cast; ring
      have h2 := rhe_le_floor_add_one (x * pow2 (52 - qlog2 x))
      omega
    have hry : (2 : ℤ) ^ 52 ≤ rhe (y * pow2 (52 - qlog2 y)) := by
      have h1 : ((2 : ℤ) ^ 52) ≤ ⌊y * pow2 (52 - qlog2 y)⌋ := by
        rw [Int.le_floor]
        calc (((2 : ℤ) ^ 52 : ℤ) : ℚ) = pow2 52 := by rw [hp52]; push_cast; ring
          _ ≤ y * pow2 (52 - qlog2 y) := hzyge
      have h2 := rhe_ge_floor (y * pow2 (52 - qlog2 y))
      omega
    calc ((rhe (x * pow2 (52 - qlog2 x)) : ℤ) : ℚ) * pow2 (qlog2 x - 52)
        ≤ (((2 : ℤ) ^ 53 : ℤ) : ℚ) * pow2 (qlog2 x - 52) :=
          mul_le_mul_of_nonneg_right (by exact_mod_cast hrx) (pow2_pos _).le
      _ = pow2 (qlog2 x + 1) := by
          rw [show (((2 : ℤ) ^ 53 : ℤ) : ℚ) = pow2 53 by rw [hp53]; push_cast; ring,
            ← pow2_add]
          ring_nf
      _ ≤ pow2 (qlog2 y) := pow2_mono (by omega)
      _ = (((2 : ℤ) ^ 52 : ℤ) : ℚ) * pow2 (qlog2 y - 52) := by
          rw [show (((2 : ℤ) ^ 52 : ℤ) : ℚ) = pow2 52 by rw [hp52]; push_cast; ring,
            ← pow2_add]
          ring_nf
      _ ≤ ((rhe (y * pow2 (52 - qlog2 y)) : ℤ) : ℚ) * pow2 (qlog2 y - 52) :=
          mul_le_mul_of_nonneg_right (by exact_mod_cast hry) (pow2_pos _).le

theorem rnd_exact (k m : ℤ) (hk1 : 2 ^ 52 ≤ k) (hk2 : k < 2 ^ 53) :
    rnd ((k : ℚ) * pow2 m) = (k : ℚ) * pow2 m := by
  have hkz : (0 : ℤ) < k := lt_of_lt_of_le (by positivity) hk1
  have hkpos : (0 : ℚ) < (k : ℚ) := by exact_mod_cast hkz
  have hx : 0 < (k : ℚ) * pow2 m := mul_pos hkpos (pow2_pos m)
  have hq : qlog2 ((k : ℚ) * pow2 m) = 52 + m := by
    apply qlog2_unique _ _ hx
    · calc pow2 (52 + m) = pow2 52 * pow2 m := pow2_add _ _
        _ ≤ (k : ℚ) * pow2 m := by
            apply mul_le_mul_of_nonneg_right _ (pow2_pos m).le
            rw [show (52 : ℤ) = ((52 : ℕ) : ℤ) by norm_num, pow2_ofNat]
            exact_mod_cast hk1
    · calc (k : ℚ) * pow2 m < pow2 53 * pow2 m := by
            apply (mul_lt_mul_right (pow2_pos m)).mpr
            rw [show (53 : ℤ) = ((53 : ℕ) : ℤ) by norm_num, pow2_ofNat]
            exact_mod_cast hk2
        _ = pow2 (52 + m + 1) := by rw [← pow2_add]; ring_nf
  rw [rnd_pos_eq _ hx, hq]
  have hz : (k : ℚ) * pow2 m * pow2 (52 - (52 + m)) = (k : ℚ) := by
    rw [mul_assoc, ← pow2_add]
    have h0 : m + (52 - (52 + m)) = 0 := by ring
    rw [h0, pow2_zero, mul_one]
  rw [hz, rhe_intCast]
  have h1 : 52 + m - 52 = m := by ring
  rw [h1]

theorem rnd_one : rnd 1 = 1 := by
  have h := rnd_exact (2 ^ 52) (-52) le_rfl (by norm_num)
  have he : (((2 ^ 52 : ℤ) : ℚ)) * pow2 (-52) = 1 := by
    rw [pow2_eq_zpow]
    have h52 : ((-52 : ℤ)) = -((52 : ℕ) : ℤ) := by norm_num
    rw [h52, zpow_neg, zpow_natCast, mul_inv_eq_iff_eq_mul₀ (by positivity)]
    norm_num
  rw [he] at h
  exact h

theorem rnd_hundred : rnd 100 = 100 := by
  have h := rnd_exact 7036874417766400 (-46) (by norm_num) (by norm_num)
  have he : ((7036874417766400 : ℤ) : ℚ) * pow2 (-46) = 100 := by
    rw [pow2_eq_zpow]
    have h46 : ((-46 : ℤ)) = -((46 : ℕ) : ℤ) := by norm_num
    rw [h46, zpow_neg, zpow_natCast]
    rw [mul_inv_eq_iff_eq_mul₀ (by positivity)]
    norm_num
  rw [he] at h
  exact h

theorem pow2_neg53_eq : pow2 (-53) = 1 / 9007199254740992 := by
  rw [pow2_eq_zpow, show ((-53 : ℤ)) = -((53 : ℕ) : ℤ) by norm_num, zpow_neg, zpow_natCast]
  norm_num

theorem pp_core (N i : ℕ) (hN : 1 ≤ N) :
    0 < rnd (rnd (((i : ℚ) + 1) / (N : ℚ)) * 100) ∧
    progressPercent N i = (⌊rnd (rnd (((i : ℚ) + 1) / (N : ℚ)) * 100)⌋).toNat := by
  have hNq : (0 : ℚ) < (N : ℚ) := by exact_mod_cast hN
  have hq : 0 < ((i : ℚ) + 1) / (N : ℚ) := div_pos (by positivity) hNq
  have hd : 0 < rnd (((i : ℚ) + 1) / (N : ℚ)) := rnd_pos _ hq
  have hp : 0 < rnd (rnd (((i : ℚ) + 1) / (N : ℚ)) * 100) := rnd_pos _ (by positivity)
  refine ⟨hp, ?_⟩
  simp only [progressPercent, fmul, fdiv, truncQ]
  rw [if_neg (not_lt.mpr hp.le)]

theorem progressPercent_le (N i : ℕ) (h1 : i + 1 ≤ N) (h44 : N ≤ 2 ^ 44) :
    progressPercent N i ≤ ((i + 1) * 100) / N := by
  have hN : 1 ≤ N := le_trans (by omega) h1
  have hNq : (0 : ℚ) < (N : ℚ) := by exact_mod_cast hN
  obtain ⟨hp, hpp⟩ := pp_core N i hN
  set q : ℚ := ((i : ℚ) + 1) / (N : ℚ) with hqdef
  set d : ℚ := rnd q with hddef
  set p : ℚ := rnd (d * 100) with hpdef
  have hq : 0 < q := div_pos (by positivity) hNq
  have hd : 0 < d := rnd_pos _ hq
  set u : ℚ := pow2 (-53) with hudef
  have hu : 0 < u := pow2_pos _
  have huval : u = 1 / 9007199254740992 := pow2_neg53_eq
  have hq1 : q ≤ 1 := by
    rw [hqdef, div_le_one hNq]
    have : ((i : ℚ) + 1) = ((i + 1 : ℕ) : ℚ) := by push_cast; ring
    rw [this]
    exact_mod_cast h1
  have hdle : d ≤ q * (1 + u) := rnd_le_mul q hq
  have hple : p ≤ d * 100 * (1 + u) := rnd_le_mul _ (by positivity)
  have hkey : p ≤ q * 100 + 300 * u := by nlinarith
  set V : ℕ := ((i + 1) * 100) / N with hVdef
  set r : ℕ := ((i + 1) * 100) % N with hrdef
  have hdm : N * V + r = (i + 1) * 100 := Nat.div_add_mod _ _
  have hrlt : r < N := Nat.mod_lt _ (by omega)
  have hq100 : q * 100 = (V : ℚ) + (r : ℚ) / (N : ℚ) := by
    rw [hqdef]
    field_simp
    have : ((i : ℚ) + 1) * 100 = (N : ℚ) * (V : ℚ) + (r : ℚ) := by exact_mod_cast hdm.symm
    linarith
  have hrN : (r : ℚ) ≤ (N : ℚ) - 1 := by
    have : (r : ℚ) + 1 ≤ (N : ℚ) := by exact_mod_cast hrlt
    linarith
  have hinvN : 1 / (N : ℚ) ≥ 1 / 17592186044416 := by
    apply one_div_le_one_div_of_le hNq
    exact_mod_cast le_trans h44 (by norm_num)
  have hrdivN : (r : ℚ) / (N : ℚ) ≤ 1 - 1 / (N : ℚ) := by
    rw [div_le_iff₀ hNq]
    have : (1 - 1 / (N : ℚ)) * (N : ℚ) = (N : ℚ) - 1 := by field_simp
    rw [this]
    exact hrN
  have hfinal : p < (V : ℚ) + 1 := by
    rw [huval] at hkey
    linarith
  have hfloor : ⌊p⌋ ≤ (V : ℤ) := by
    have := Int.floor_lt.mpr (show p < ((V + 1 : ℤ) : ℚ) by push_cast; linarith)
    omega
  rw [hpp]
  exact Int.toNat_le.mpr hfloor

theorem progressPercent_add_one_ge (N i : ℕ) (h1 : i + 1 ≤ N) :
    ((i + 1) * 100) / N ≤ progressPercent N i + 1 := by
  have hN : 1 ≤ N := le_trans (by omega) h1
  have hNq : (0 : ℚ) < (N : ℚ) := by exact_mod_cast hN
  obtain ⟨hp, hpp⟩ := pp_core N i hN
  set q : ℚ := ((i : ℚ) + 1) / (N : ℚ) with hqdef
  set d : ℚ := rnd q with hddef
  set p : ℚ := rnd (d * 100) with hpdef
  have hq : 0 < q := div_pos (by positivity) hNq
  have hd : 0 < d := rnd_pos _ hq
  set u : ℚ := pow2 (-53) with hudef
  have hu : 0 < u := pow2_pos _
  have huval : u = 1 / 9007199254740992 := pow2_neg53_eq
  have hq1 : q ≤ 1 := by
    rw [hqdef, div_le_one hNq]
    have : ((i : ℚ) + 1) = ((i + 1 : ℕ) : ℚ) := by push_cast; ring
    rw [this]
    exact_mod_cast h1
  have hdge : q * (1 - u) ≤ d := rnd_ge_mul q hq
  have hpge : d * 100 * (1 - u) ≤ p := rnd_ge_mul _ (by positivity)
  have hu1 : u < 1 := by rw [huval]; norm_num
  have hkey : q * 100 - 300 * u ≤ p := by nlinarith
  set V : ℕ := ((i + 1) * 100) / N with hVdef
  set r : ℕ := ((i + 1) * 100) % N with hrdef
  have hdm : N * V + r = (i + 1) * 100 := Nat.div_add_mod _ _
  have hq100 : q * 100 = (V : ℚ) + (r : ℚ) / (N : ℚ) := by
    rw [hqdef]
    field_simp
    have : ((i : ℚ) + 1) * 100 = (N : ℚ) * (V : ℚ) + (r : ℚ) := by exact_mod_cast hdm.symm
    linarith
  have hrpos : (0 : ℚ) ≤ (r : ℚ) / (N : ℚ) := by positivity
  have hfinal : ((V : ℚ)) - 1 < p := by
    rw [huval] at hkey
    linarith
  have hfloor : (V : ℤ) - 1 ≤ ⌊p⌋ := by
    rw [Int.le_floor]
    push_cast
    linarith
  rw [hpp]
  have hnn : 0 ≤ ⌊p⌋ := Int.floor_nonneg.mpr hp.le
  omega

theorem progressPercent_mono (N : ℕ) (hN : 1 ≤ N) {i j : ℕ} (hij : i ≤ j) :
    progressPercent N i ≤ progressPercent N j := by
  have hNq : (0 : ℚ) < (N : ℚ) := by exact_mod_cast hN
  obtain ⟨hpi, hppi⟩ := pp_core N i hN
  obtain ⟨hpj, hppj⟩ := pp_core N j hN
  have hqi : 0 < ((i : ℚ) + 1) / (N : ℚ) := div_pos (by positivity) hNq
  have hqle : ((i : ℚ) + 1) / (N : ℚ) ≤ ((j : ℚ) + 1) / (N : ℚ) := by
    gcongr
  have hdle : rnd (((i : ℚ) + 1) / (N : ℚ)) ≤ rnd (((j : ℚ) + 1) / (N : ℚ)) :=
    rnd_mono hqi hqle
  have hdi : 0 < rnd (((i : ℚ) + 1) / (N : ℚ)) := rnd_pos _ hqi
  have hmle : rnd (((i : ℚ) + 1) / (N : ℚ)) * 100 ≤
      rnd (((j : ℚ) + 1) / (N : ℚ)) * 100 := by linarith
  have hple : rnd (rnd (((i : ℚ) + 1) / (N : ℚ)) * 100) ≤
      rnd (rnd (((j : ℚ) + 1) / (N : ℚ)) * 100) :=
    rnd_mono (by positivity) hmle
  rw [hppi, hppj]
  exact Int.toNat_le_toNat (Int.floor_le_floor hple)

theorem progressPercent_last (N : ℕ) (hN : 1 ≤ N) : progressPercent N (N - 1) = 100 := by
  have hNq : (0 : ℚ) < (N : ℚ) := by exact_mod_cast hN
  have hNne : (N : ℚ) ≠ 0 := ne_of_gt hNq
  have hcast : ((N - 1 : ℕ) : ℚ) + 1 = (N : ℚ) := by
    have : ((N - 1 : ℕ) : ℚ) = (N : ℚ) - 1 := by
      push_cast [Nat.cast_sub hN]
      ring
    rw [this]
    ring
  simp only [progressPercent, fdiv, fmul]
  rw [hcast, div_self hNne, rnd_one, one_mul, rnd_hundred]
  simp only [truncQ]
  rw [if_neg (by norm_num : ¬ (100 : ℚ) < 0)]
  rw [show (100 : ℚ) = ((100 : ℤ) : ℚ) by norm_num, Int.floor_intCast]
  rfl

theorem progressPercent_lt_100 (N i : ℕ) (h : i + 1 < N) (h44 : N ≤ 2 ^ 44) :
    progressPercent N i < 100 := by
  apply lt_of_le_of_lt (progressPercent_le N i h.le h44)
  rw [Nat.div_lt_iff_lt_mul (by omega)]
  omega

theorem runLoop_eq (total : ℕ) (cancelAt : Option ℕ) :
    ∀ (items : List InputItem) (i : ℕ) (s : RunState),
    runLoop total cancelAt i items s =
      (List.foldl applyItem s (procSeg cancelAt i items),
       eventsOf total i (procSeg cancelAt i items)) := by
  intro items
  induction items with
  | nil =>
    intro i s
    cases cancelAt <;> simp [runLoop, procSeg, eventsOf]
  | cons x xs ih =>
    intro i s
    cases cancelAt with
    | none =>
      have hrun : isRunningAt none i = true := rfl
      simp only [runLoop, hrun, if_true]
      rw [ih]
      simp [procSeg, eventsOf]
    | some c =>
      by_cases hc : i < c
      · have hrun : isRunningAt (some c) i = true := by
          simp [isRunningAt, hc]
        have htake : procSeg (some c) i (x :: xs) = x :: procSeg (some c) (i + 1) xs := by
          simp only [procSeg]
          rw [show c - i = (c - (i + 1)) + 1 by omega, List.take_succ_cons]
        simp only [runLoop, hrun, if_true]
        rw [ih, htake]
        simp [eventsOf]
      · have hrun : isRunningAt (some c) i = false := by
          simp only [isRunningAt, decide_eq_false_iff_not]
          omega
        have htake : procSeg (some c) i (x :: xs) = [] := by
          simp only [procSeg]
          rw [show c - i = 0 by omega, List.take_zero]
        simp only [runLoop, hrun, Bool.false_eq_true, if_false]
        rw [htake]
        simp [eventsOf]

theorem foldl_applyItem_count (l : List InputItem) :
    ∀ s : RunState, (List.foldl applyItem s l).compressed_count =
      s.compressed_count + (succItems l).length := by
  induction l with
  | nil => intro s; simp [succItems]
  | cons x xs ih =>
    intro s
    rw [List.foldl_cons, ih]
    cases hx : x.outcome <;>
      simp [applyItem, hx, succItems, List.filter_cons, ItemOutcome.isSuccess] <;>
      omega

theorem foldl_applyItem_orig (l : List InputItem) :
    ∀ s : RunState, (List.foldl applyItem s l).original_size_total =
      s.original_size_total + origKBsum l := by
  induction l with
  | nil => intro s; simp [origKBsum, readItems]
  | cons x xs ih =>
    intro s
    rw [List.foldl_cons, ih]
    cases hx : x.outcome <;>
      simp [applyItem, hx, origKBsum, readItems, List.filter_cons, ItemOutcome.readOrig,
        ItemOutcome.origBytes] <;>
      ring

theorem foldl_applyItem_comp (l : List InputItem) :
    ∀ s : RunState, (List.foldl applyItem s l).compressed_size_total =
      s.compressed_size_total + compKBsum l := by
  induction l with
  | nil => intro s; simp [compKBsum, succItems]
  | cons x xs ih =>
    intro s
    rw [List.foldl_cons, ih]
    cases hx : x.outcome <;>
      simp [applyItem, hx, compKBsum, succItems, List.filter_cons, ItemOutcome.isSuccess,
        ItemOutcome.compBytes] <;>
      ring

theorem foldl_applyItem (l : List InputItem) (s : RunState) :
    List.foldl applyItem s l =
      ⟨s.compressed_count + (succItems l).length,
       s.original_size_total + origKBsum l,
       s.compressed_size_total + compKBsum l⟩ := by
  have h1 := foldl_applyItem_count l s
  have h2 := foldl_applyItem_orig l s
  have h3 := foldl_applyItem_comp l s
  cases hfold : List.foldl applyItem s l with
  | mk a b c =>
    rw [hfold] at h1 h2 h3
    simp only [RunState.mk.injEq]
    exact ⟨h1, h2, h3⟩

theorem run_eq (items : List InputItem) (cancelAt : Option ℕ) :
    run items cancelAt =
      eventsOf items.length 0 (procSeg cancelAt 0 items) ++
        [JobEvent.completed (succItems (procSeg cancelAt 0 items)).length
          (origKBsum (procSeg cancelAt 0 items)) (compKBsum (procSeg cancelAt 0 items))] := by
  unfold run
  rw [runLoop_eq, foldl_applyItem]
  simp [initState]

theorem runFinal_eq (items : List InputItem) (cancelAt : Option ℕ) :
    runFinal items cancelAt =
      ⟨(succItems (procSeg cancelAt 0 items)).length,
       origKBsum (procSeg cancelAt 0 items), compKBsum (procSeg cancelAt 0 items)⟩ := by
  unfold runFinal
  rw [runLoop_eq, foldl_applyItem]
  simp [initState]

theorem itemEvents_countP_completed (total i : ℕ) (x : InputItem) :
    (itemEvents total i x).countP isCompletedB = 0 := by
  cases hx : x.outcome <;>
    simp [itemEvents, hx, isCompletedB, List.countP_cons, List.countP_append]

theorem itemEvents_countP_progress (total i : ℕ) (x : InputItem) :
    (itemEvents total i x).countP isProgressB = 1 := by
  cases hx : x.outcome <;>
    simp [itemEvents, hx, isProgressB, List.countP_cons, List.countP_append]

theorem itemEvents_countP_status (total i : ℕ) (x : InputItem) :
    (itemEvents total i x).countP isStatusB =
      if x.outcome.isSuccess then 1 else 2 := by
  cases hx : x.outcome <;>
    simp [itemEvents, hx, isStatusB, ItemOutcome.isSuccess, List.countP_cons,
      List.countP_append]

theorem itemEvents_progressValues (total i : ℕ) (x : InputItem) :
    (itemEvents total i x).filterMap progressOf = [progressPercent total i] := by
  cases hx : x.outcome <;>
    simp [itemEvents, hx, progressOf, List.filterMap_cons, List.filterMap_append]

theorem eventsOf_append (total : ℕ) (l1 l2 : List InputItem) :
    ∀ i, eventsOf total i (l1 ++ l2) =
      eventsOf total i l1 ++ eventsOf total (i + l1.length) l2 := by
  induction l1 with
  | nil => intro i; simp [eventsOf]
  | cons x xs ih =>
    intro i
    have hl : (x :: xs) ++ l2 = x :: (xs ++ l2) := rfl
    rw [hl]
    show itemEvents total i x ++ eventsOf total (i + 1) (xs ++ l2) = _
    rw [ih (i + 1)]
    show _ = (itemEvents total i x ++ eventsOf total (i + 1) xs) ++
      eventsOf total (i + (xs.length + 1)) l2
    rw [List.append_assoc]
    rw [show i + 1 + xs.length = i + (xs.length + 1) by omega]

theorem eventsOf_countP_completed (total : ℕ) (l : List InputItem) :
    ∀ i, (eventsOf total i l).countP isCompletedB = 0 := by
  induction l with
  | nil => intro i; simp [eventsOf]
  | cons x xs ih =>
    intro i
    simp [eventsOf, List.countP_append, itemEvents_countP_completed, ih (i + 1)]

theorem eventsOf_countP_progress (total : ℕ) (l : List InputItem) :
    ∀ i, (eventsOf total i l).countP isProgressB = l.length := by
  induction l with
  | nil => intro i; simp [eventsOf]
  | cons x xs ih =>
    intro i
    simp [eventsOf, List.countP_append, itemEvents_countP_progress, ih (i + 1)]
    omega

theorem eventsOf_countP_status (total : ℕ) (l : List InputItem) :
    ∀ i, (eventsOf total i l).countP isStatusB =
      l.length + (l.filter fun it => !it.outcome.isSuccess).length := by
  induction l with
  | nil => intro i; simp [eventsOf]
  | cons x xs ih =>
    intro i
    rw [eventsOf, List.countP_append, itemEvents_countP_status, ih (i + 1)]
    cases hx : x.outcome.isSuccess <;>
      simp [List.filter_cons, hx] <;> omega

theorem eventsOf_progressValues (total : ℕ) (l : List InputItem) :
    ∀ i, (eventsOf total i l).filterMap progressOf =
      (List.range l.length).map fun j => progressPercent total (i + j) := by
  induction l with
  | nil => intro i; simp [eventsOf]
  | cons x xs ih =>
    intro i
    rw [eventsOf, List.filterMap_append, itemEvents_progressValues, ih (i + 1)]
    rw [List.length_cons, List.range_succ_eq_map, List.map_cons, List.map_map]
    rw [List.singleton_append, Nat.add_zero]
    congr 1
    apply List.map_congr_left
    intro j hj
    simp only [Function.comp_apply]
    congr 1
    omega

theorem procSeg_length_le (cancelAt : Option ℕ) (items : List InputItem) :
    (procSeg cancelAt 0 items).length ≤ items.length := by
  cases cancelAt with
  | none => exact le_rfl
  | some c =>
    simp only [procSeg, List.length_take]
    omega

theorem isSuccess_false_of_failMsg {o : ItemOutcome} {m : String}
    (h : o.failMsg = some m) : o.isSuccess = false := by
  cases o <;> simp [ItemOutcome.failMsg, ItemOutcome.isSuccess] at h ⊢

theorem sum_kb_map (f : InputItem → ℕ) (l : List InputItem) :
    ((l.map fun it => kb (f it)).sum : ℚ) = (((l.map fun it => f it).sum : ℕ) : ℚ) / 1024 := by
  induction l with
  | nil => norm_num
  | cons x xs ih =>
    simp only [List.map_cons, List.sum_cons]
    rw [ih, Nat.cast_add, kb]
    ring

/-- C2: for every input list (any length `N ≥ 0`) and any cancellation
behaviour, the run emits exactly one `Completed` event, it is the last event
emitted, and its `processedCount` is at most `N`. -/
theorem run_exactly_one_completed_last (items : List InputItem) (cancelAt : Option ℕ) :
    (run items cancelAt).countP isCompletedB = 1 ∧
    ∃ c ot ct, (run items cancelAt).getLast? = some (JobEvent.completed c ot ct) ∧
      c ≤ items.length := by
  rw [run_eq]
  constructor
  · rw [List.countP_append, eventsOf_countP_completed]
    simp [isCompletedB, List.countP_cons]
  · refine ⟨_, _, _, List.getLast?_concat _, ?_⟩
    calc (succItems (procSeg cancelAt 0 items)).length
        ≤ (procSeg cancelAt 0 items).length := List.length_filter_le _ _
      _ ≤ items.length := procSeg_length_le _ _

/-- C7: if the cancellation flag is already observed unset at the first
iteration boundary, the run processes zero items and emits
`Completed{0, 0, 0}`, whatever the number of submitted inputs. -/
theorem cancel_before_first_item (items : List InputItem) :
    run items (some 0) = [JobEvent.completed 0 0 0] := by
  rw [run_eq]
  simp [procSeg, eventsOf, succItems, origKBsum, compKBsum, readItems]

/-- C6 counterexample: with one input and cancellation observed at the first
boundary, the run emits no `StatusChanged` at all — the flag is checked
*before* the "Compressing" status is emitted (line 33 precedes line 36), so
the claimed "StatusChanged for item i has already been emitted" is false. -/
theorem status_before_cancel_check_cex :
    run [⟨"a.jpg", ItemOutcome.success 10 5⟩] (some 0) = [JobEvent.completed 0 0 0] ∧
    (run [⟨"a.jpg", ItemOutcome.success 10 5⟩] (some 0)).countP isStatusB = 0 := by
  constructor <;>
  · rw [run_eq]
    simp [procSeg, eventsOf, succItems, origKBsum, compKBsum, readItems, isStatusB]

/-- C6 amended: each iteration first checks the cancellation flag and only
then emits `StatusChanged`; if cancellation is observed at boundary `c`, the
items at indices `≥ c` produce no events at all (no `StatusChanged` for item
`c` either), and the terminal `Completed` reflects only the first `c`
items. -/
theorem cancel_checked_before_status (items : List InputItem) (c : ℕ) :
    run items (some c) =
      eventsOf items.length 0 (items.take c) ++
        [JobEvent.completed (succItems (items.take c)).length
          (origKBsum (items.take c)) (compKBsum (items.take c))] := by
  rw [run_eq]
  simp [procSeg]

/-- C1 counterexample: one item whose processing fails *after* its input size
was read (`Image.open`/`save`/output `getsize` raised, line 39 already ran):
`originalSizeTotal` of the terminal event is `1` (KB) although the sum of
original sizes over the successful items is `0` — a failed item can
contribute to `originalSizeTotal`. -/
theorem totals_successful_only_cex :
    (runFinal [⟨"a.jpg", ItemOutcome.failLate 1024 "broken"⟩] none).original_size_total = 1 ∧
    succOrigKBsum [⟨"a.jpg", ItemOutcome.failLate 1024 "broken"⟩] = 0 ∧
    (1 : ℚ) ≠ 0 := by
  refine ⟨?_, ?_, by norm_num⟩
  · rw [runFinal_eq]
    norm_num [procSeg, origKBsum, readItems, List.filter_cons, ItemOutcome.readOrig,
      ItemOutcome.origBytes, kb]
  · simp [succOrigKBsum, succItems, List.filter_cons, ItemOutcome.isSuccess]

/-- C1 amended: the terminal `Completed` carries
`compressedSizeTotal` = sum of the compressed sizes (KB) of exactly the
processed items that succeeded, and `originalSizeTotal` = sum of the original
sizes (KB) of exactly the processed items whose input-size read succeeded —
that is, the succeeded items *plus* any item that failed after line 40; an
item that fails before its size is read contributes nothing. -/
theorem totals_at_completed (items : List InputItem) (cancelAt : Option ℕ) :
    (run items cancelAt).getLast? =
      some (JobEvent.completed (succItems (procSeg cancelAt 0 items)).length
        (origKBsum (procSeg cancelAt 0 items)) (compKBsum (procSeg cancelAt 0 items))) := by
  rw [run_eq]
  exact List.getLast?_concat _

/-- C10: loop invariant, stated for the state after the first `k` iterations
(arbitrary `k`, arbitrary cancellation): `compressed_size_total` is the sum
of the measured output sizes (KB) of exactly the fully-processed items so
far, `compressed_count` counts exactly those items, and
`original_size_total` additionally includes the original size of every item
that failed only after its input size was read. -/
theorem loop_invariant_per_iteration (items : List InputItem) (cancelAt : Option ℕ) (k : ℕ) :
    (runLoop items.length cancelAt 0 (items.take k) initState).1 =
      ⟨((procSeg cancelAt 0 (items.take k)).filter fun it => it.outcome.isSuccess).length,
       (((procSeg cancelAt 0 (items.take k)).filter fun it => it.outcome.readOrig).map
         fun it => kb it.outcome.origBytes).sum,
       (((procSeg cancelAt 0 (items.take k)).filter fun it => it.outcome.isSuccess).map
         fun it => kb it.outcome.compBytes).sum⟩ := by
  rw [runLoop_eq, foldl_applyItem]
  simp [initState, succItems, readItems, origKBsum, compKBsum]

/-- C8 counterexample: `start_compression` invoked in a state where a worker
is already running (and inputs and output directory are set) simply starts a
new worker; it does not fail with `AlreadyRunningError`. -/
theorem already_running_cex :
    start_compression ⟨["a.jpg"], "/out", true⟩ = StartOutcome.started ∧
    StartOutcome.started ≠ StartOutcome.alreadyRunningError := by
  decide

/-- C8 amended: `start_compression` performs no running-state check at all:
its outcome is independent of whether a worker is already running, and
`AlreadyRunningError` is never produced — re-entry is prevented only by the
UI disabling the Compress button while a job runs. -/
theorem no_already_running_check :
    (∀ st : AppState, start_compression st ≠ StartOutcome.alreadyRunningError) ∧
    ∀ (files : List String) (dir : String) (r1 r2 : Bool),
      start_compression ⟨files, dir, r1⟩ = start_compression ⟨files, dir, r2⟩ := by
  constructor
  · intro st
    unfold start_compression
    split_ifs <;> simp
  · intro files dir r1 r2
    rfl

/-- C3: a failing item never terminates the batch: its failure surfaces as
the error `StatusChanged`, every item (including all later ones) still gets
its progress event, the failed item is excluded from `processedCount`, and
the run still ends with a `Completed` event counting only the other items. -/
theorem single_failure_not_fatal (pre post : List InputItem) (f : InputItem) (msg : String)
    (hf : f.outcome.failMsg = some msg) :
    (JobEvent.statusChanged ("Error compressing " ++ basename f.file_path ++ ": " ++ msg)
        ∈ run (pre ++ f :: post) none) ∧
    (run (pre ++ f :: post) none).countP isProgressB = pre.length + 1 + post.length ∧
    ∃ ot ct, (run (pre ++ f :: post) none).getLast? =
      some (JobEvent.completed ((succItems pre).length + (succItems post).length) ot ct) := by
  have hsf : f.outcome.isSuccess = false := isSuccess_false_of_failMsg hf
  rw [run_eq]
  have hseg : procSeg none 0 (pre ++ f :: post) = pre ++ f :: post := rfl
  rw [hseg]
  refine ⟨?_, ?_, ?_⟩
  · apply List.mem_append_left
    rw [eventsOf_append]
    apply List.mem_append_right
    show _ ∈ itemEvents (pre ++ f :: post).length (0 + pre.length) f ++
      eventsOf (pre ++ f :: post).length (0 + pre.length + 1) post
    apply List.mem_append_left
    cases ho : f.outcome with
    | success o c =>
      rw [ho] at hf
      simp [ItemOutcome.failMsg] at hf
    | failEarly m =>
      rw [ho] at hf
      simp only [ItemOutcome.failMsg, Option.some.injEq] at hf
      subst hf
      simp [itemEvents, ho]
    | failLate o m =>
      rw [ho] at hf
      simp only [ItemOutcome.failMsg, Option.some.injEq] at hf
      subst hf
      simp [itemEvents, ho]
  · rw [List.countP_append, eventsOf_countP_progress]
    simp [isProgressB, List.countP_cons, List.countP_nil, List.length_append,
      List.length_cons]
    omega
  · have hcount : (succItems (pre ++ f :: post)).length =
        (succItems pre).length + (succItems post).length := by
      simp [succItems, List.filter_append, List.filter_cons, hsf]
    refine ⟨origKBsum (pre ++ f :: post), compKBsum (pre ++ f :: post), ?_⟩
    rw [List.getLast?_concat, hcount]

/-- Witness for C3: the batch [A, B, C] with B failing; A and C are still
processed and counted, B's error message is emitted, the run completes. -/
theorem single_failure_not_fatal_witness :
    (JobEvent.statusChanged ("Error compressing " ++ basename "b.jpg" ++ ": " ++ "boom")
        ∈ run ([⟨"a.jpg", ItemOutcome.success 10 5⟩] ++
          ⟨"b.jpg", ItemOutcome.failEarly "boom"⟩ :: [⟨"c.jpg", ItemOutcome.success 7 3⟩]) none) ∧
    (run ([⟨"a.jpg", ItemOutcome.success 10 5⟩] ++
        ⟨"b.jpg", ItemOutcome.failEarly "boom"⟩ :: [⟨"c.jpg", ItemOutcome.success 7 3⟩])
        none).countP isProgressB = 1 + 1 + 1 ∧
    ∃ ot ct, (run ([⟨"a.jpg", ItemOutcome.success 10 5⟩] ++
        ⟨"b.jpg", ItemOutcome.failEarly "boom"⟩ :: [⟨"c.jpg", ItemOutcome.success 7 3⟩])
        none).getLast? =
      some (JobEvent.completed ((succItems [⟨"a.jpg", ItemOutcome.success 10 5⟩]).length +
        (succItems [⟨"c.jpg", ItemOutcome.success 7 3⟩]).length) ot ct) :=
  single_failure_not_fatal [⟨"a.jpg", ItemOutcome.success 10 5⟩]
    [⟨"c.jpg", ItemOutcome.success 7 3⟩] ⟨"b.jpg", ItemOutcome.failEarly "boom"⟩ "boom" rfl

/-- C5 counterexample: a single failing input produces *two* `StatusChanged`
events before its `ProgressChanged` (the "Compressing" status and the error
status of line 66), refuting "no input ever produces more or fewer than one
StatusChanged before its ProgressChanged". -/
theorem one_status_per_input_cex :
    run [⟨"b.jpg", ItemOutcome.failEarly "boom"⟩] none =
      [JobEvent.statusChanged ("Compressing: " ++ basename "b.jpg"),
       JobEvent.statusChanged ("Error compressing " ++ basename "b.jpg" ++ ": " ++ "boom"),
       JobEvent.progressChanged (progressPercent 1 0),
       JobEvent.completed 0 0 0] ∧
    progressPercent 1 0 = 100 ∧
    (run [⟨"b.jpg", ItemOutcome.failEarly "boom"⟩] none).countP isStatusB = 2 := by
  have hpp : progressPercent 1 0 = 100 := progressPercent_last 1 le_rfl
  refine ⟨?_, hpp, ?_⟩
  · rw [run_eq]
    simp [procSeg, eventsOf, itemEvents, succItems, origKBsum, compKBsum, readItems,
      List.filter_cons, ItemOutcome.isSuccess, ItemOutcome.readOrig]
  · rw [run_eq]
    simp [procSeg, eventsOf, itemEvents, isStatusB, List.countP_cons, List.countP_append]

/-- C5 amended: the stream is, in input order and with no gaps before the
cancellation point, one block per non-skipped input — the "Compressing"
status, then (iff the item failed) the error status, then exactly one
`ProgressChanged` — followed by the single terminal `Completed`; so the
number of `StatusChanged` events is the number of processed inputs plus the
number of failed ones, and the progress payloads are exactly the per-index
values in increasing index order. -/
theorem event_stream_shape (items : List InputItem) (cancelAt : Option ℕ) :
    run items cancelAt =
      eventsOf items.length 0 (procSeg cancelAt 0 items) ++
        [JobEvent.completed (succItems (procSeg cancelAt 0 items)).length
          (origKBsum (procSeg cancelAt 0 items)) (compKBsum (procSeg cancelAt 0 items))] ∧
    (run items cancelAt).countP isStatusB =
      (procSeg cancelAt 0 items).length +
        ((procSeg cancelAt 0 items).filter fun it => !it.outcome.isSuccess).length ∧
    (run items cancelAt).filterMap progressOf =
      (List.range (procSeg cancelAt 0 items).length).map
        fun i => progressPercent items.length i := by
  refine ⟨run_eq items cancelAt, ?_, ?_⟩
  · rw [run_eq, List.countP_append, eventsOf_countP_status]
    simp [isStatusB, List.countP_cons]
  · rw [run_eq, List.filterMap_append, eventsOf_progressValues]
    simp only [List.filterMap_cons, progressOf, List.filterMap_nil, List.append_nil]
    apply List.map_congr_left
    intro j hj
    rw [Nat.zero_add]

/-- C9 counterexample: an item of 1536 bytes input and 1024 bytes output
leads to `originalSizeTotal = 3/2` — the worker has already divided by 1024
(line 39), so the total carried by `Completed` is in kilobytes, not in whole
bytes (it would be 1536). -/
theorem sizes_in_bytes_cex :
    (runFinal [⟨"a.jpg", ItemOutcome.success 1536 1024⟩] none).original_size_total = 3 / 2 ∧
    (3 / 2 : ℚ) ≠ 1536 := by
  constructor
  · rw [runFinal_eq]
    norm_num [procSeg, origKBsum, readItems, List.filter_cons, ItemOutcome.readOrig,
      ItemOutcome.origBytes, kb]
  · norm_num

/-- C9 amended: sizes are measured in whole bytes (`os.path.getsize`) but
each is divided by 1024 *inside the worker* as it is accumulated, so the
totals carried by `Completed` are the byte sums divided by 1024 (kilobytes);
the presentation layer then computes its reduction arithmetic on those KB
totals. -/
theorem sizes_converted_to_kb_in_worker (items : List InputItem) (cancelAt : Option ℕ) :
    (runFinal items cancelAt).original_size_total =
      ((origBytesSum (procSeg cancelAt 0 items) : ℕ) : ℚ) / 1024 ∧
    (runFinal items cancelAt).compressed_size_total =
      ((compBytesSum (procSeg cancelAt 0 items) : ℕ) : ℚ) / 1024 := by
  rw [runFinal_eq]
  constructor
  · show origKBsum _ = _
    unfold origKBsum origBytesSum
    exact sum_kb_map _ _
  · show compKBsum _ = _
    unfold compKBsum compBytesSum
    exact sum_kb_map _ _

theorem progressPercent_50_28 : progressPercent 50 28 = 57 := by
  have hm1 : pow2 (-1) = 1 / 2 := by
    rw [pow2_eq_zpow, show ((-1 : ℤ)) = -((1 : ℕ) : ℤ) by norm_num, zpow_neg, zpow_natCast]
    norm_num
  have h53 : pow2 53 = 9007199254740992 := by
    rw [show (53 : ℤ) = ((53 : ℕ) : ℤ) by norm_num, pow2_ofNat]
    norm_num
  have h47 : pow2 47 = 140737488355328 := by
    rw [show (47 : ℤ) = ((47 : ℕ) : ℤ) by norm_num, pow2_ofNat]
    norm_num
  have h32 : pow2 5 = 32 := by
    rw [show (5 : ℤ) = ((5 : ℕ) : ℤ) by norm_num, pow2_ofNat]
    norm_num
  have h64 : pow2 6 = 64 := by
    rw [show (6 : ℤ) = ((6 : ℕ) : ℤ) by norm_num, pow2_ofNat]
    norm_num
  have hm47 : pow2 (-47) = 1 / 140737488355328 := by
    rw [pow2_eq_zpow, show ((-47 : ℤ)) = -((47 : ℕ) : ℤ) by norm_num, zpow_neg, zpow_natCast]
    norm_num
  have he1 : qlog2 (29 / 50 : ℚ) = -1 := by
    apply qlog2_unique _ _ (by norm_num)
    · rw [hm1]; norm_num
    · rw [show (-1 : ℤ) + 1 = 0 by ring, pow2_zero]; norm_num
  have hz1 : (29 / 50 : ℚ) * pow2 (52 - (-1)) = 29 / 50 * 9007199254740992 := by
    rw [show (52 : ℤ) - (-1) = 53 by ring, h53]
  have hfl1 : ⌊(29 / 50 : ℚ) * 9007199254740992⌋ = 5224175567749775 := by
    apply Int.floor_eq_iff.mpr
    constructor
    · push_cast; norm_num
    · push_cast; norm_num
  have hrhe1 : rhe ((29 / 50 : ℚ) * 9007199254740992) = 5224175567749775 := by
    simp only [rhe]
    rw [hfl1]
    rw [if_pos (by push_cast; norm_num)]
  have hd : rnd (29 / 50 : ℚ) = 5224175567749775 / 9007199254740992 := by
    rw [rnd_pos_eq _ (by norm_num), he1, hz1, hrhe1,
      show (-1 : ℤ) - 52 = -53 by ring, pow2_neg53_eq]
    push_cast
    ring
  have he2 : qlog2 ((5224175567749775 / 9007199254740992 : ℚ) * 100) = 5 := by
    apply qlog2_unique _ _ (by norm_num)
    · rw [h32]; norm_num
    · rw [show (5 : ℤ) + 1 = 6 by ring, h64]; norm_num
  have hz2 : ((5224175567749775 / 9007199254740992 : ℚ) * 100) * pow2 (52 - 5) =
      522417556774977500 / 64 := by
    rw [show (52 : ℤ) - 5 = 47 by ring, h47]
    norm_num
  have hfl2 : ⌊(522417556774977500 / 64 : ℚ)⌋ = 8162774324609023 := by
    apply Int.floor_eq_iff.mpr
    constructor
    · push_cast; norm_num
    · push_cast; norm_num
  have hrhe2 : rhe ((522417556774977500 / 64 : ℚ)) = 8162774324609023 := by
    simp only [rhe]
    rw [hfl2]
    rw [if_pos (by push_cast; norm_num)]
  have hp : rnd ((5224175567749775 / 9007199254740992 : ℚ) * 100) =
      8162774324609023 / 140737488355328 := by
    rw [rnd_pos_eq _ (by norm_num), he2, hz2, hrhe2,
      show (5 : ℤ) - 52 = -47 by ring, hm47]
    push_cast
    ring
  have hcast : (((28 : ℕ) : ℚ) + 1) / ((50 : ℕ) : ℚ) = 29 / 50 := by
    push_cast
    norm_num
  have hfl3 : ⌊(8162774324609023 / 140737488355328 : ℚ)⌋ = 57 := by
    apply Int.floor_eq_iff.mpr
    constructor
    · push_cast; norm_num
    · push_cast; norm_num
  simp only [progressPercent, fdiv, fmul]
  rw [hcast, hd, hp]
  simp only [truncQ]
  rw [if_neg (by norm_num), hfl3]
  rfl

/-- C4 counterexample: in a 50-input run the `ProgressChanged` emitted at
index 28 carries 57, yet `floor((28+1)*100/50) = 58`: the binary64 result of
`(29/50)*100` is 57.99999999999999289, and `int()` truncates it to 57. -/
theorem progress_floor_cex :
    ((run (List.replicate 50 ⟨"a.jpg", ItemOutcome.success 0 0⟩) none).filterMap
      progressOf)[28]? = some 57 ∧ (28 + 1) * 100 / 50 = 58 := by
  constructor
  · rw [run_eq]
    have hseg : procSeg none 0 (List.replicate 50 ⟨"a.jpg", ItemOutcome.success 0 0⟩) =
        List.replicate 50 ⟨"a.jpg", ItemOutcome.success 0 0⟩ := rfl
    rw [hseg, List.filterMap_append, eventsOf_progressValues]
    simp [List.filterMap_cons, progressOf, List.length_replicate, List.getElem?_map,
      List.getElem?_range, progressPercent_50_28]
  · norm_num

/-- C4 amended: every emitted progress value is the binary64 evaluation
`int(((i+1)/N)*100)`; for any batch of at most `2^44` items it never exceeds
`floor((i+1)*100/N)` and is at most one below it; the emitted values are
monotonically non-decreasing, and 100 is emitted iff the loop processes
index `N-1`. -/
theorem progress_values_binary64 (items : List InputItem) (cancelAt : Option ℕ)
    (hN : 1 ≤ items.length) (h44 : items.length ≤ 2 ^ 44) :
    ((run items cancelAt).filterMap progressOf =
      (List.range (procSeg cancelAt 0 items).length).map
        fun i => progressPercent items.length i) ∧
    List.Chain' (· ≤ ·) ((run items cancelAt).filterMap progressOf) ∧
    (∀ i, i < (procSeg cancelAt 0 items).length →
      (i + 1) * 100 / items.length - 1 ≤ progressPercent items.length i ∧
      progressPercent items.length i ≤ (i + 1) * 100 / items.length) ∧
    (100 ∈ (run items cancelAt).filterMap progressOf ↔
      (procSeg cancelAt 0 items).length = items.length) := by
  have hklen : (procSeg cancelAt 0 items).length ≤ items.length := procSeg_length_le _ _
  have hvals : (run items cancelAt).filterMap progressOf =
      (List.range (procSeg cancelAt 0 items).length).map
        fun i => progressPercent items.length i := by
    rw [run_eq, List.filterMap_append, eventsOf_progressValues]
    simp only [List.filterMap_cons, progressOf, List.filterMap_nil, List.append_nil]
    apply List.map_congr_left
    intro j hj
    rw [Nat.zero_add]
  refine ⟨hvals, ?_, ?_, ?_⟩
  · rw [hvals, List.chain'_map]
    cases hk : (procSeg cancelAt 0 items).length with
    | zero => simp
    | succ n =>
      rw [List.chain'_range_succ]
      intro m hm
      exact progressPercent_mono items.length hN (by omega)
  · intro i hik
    have hi1 : i + 1 ≤ items.length := by omega
    constructor
    · have := progressPercent_add_one_ge items.length i hi1
      omega
    · exact progressPercent_le items.length i hi1 h44
  · rw [hvals]
    constructor
    · intro hmem
      rw [List.mem_map] at hmem
      obtain ⟨j, hj, hjv⟩ := hmem
      rw [List.mem_range] at hj
      by_contra hne
      have hj1 : j + 1 < items.length := by omega
      have := progressPercent_lt_100 items.length j hj1 h44
      omega
    · intro hk
      rw [List.mem_map]
      refine ⟨items.length - 1, ?_, progressPercent_last items.length hN⟩
      rw [List.mem_range, hk]
      omega

/-- Witness for C4 amended at a single-input batch: the only progress value
is 100 and all the stated properties hold. -/
theorem progress_values_binary64_witness :
    ((run [⟨"a.jpg", ItemOutcome.success 0 0⟩] none).filterMap progressOf =
      (List.range (procSeg none 0 [⟨"a.jpg", ItemOutcome.success 0 0⟩]).length).map
        fun i => progressPercent ([(⟨"a.jpg", ItemOutcome.success 0 0⟩ : InputItem)].length) i) ∧
    List.Chain' (· ≤ ·) ((run [⟨"a.jpg", ItemOutcome.success 0 0⟩] none).filterMap progressOf) ∧
    (∀ i, i < (procSeg none 0 [⟨"a.jpg", ItemOutcome.success 0 0⟩]).length →
      (i + 1) * 100 / ([(⟨"a.jpg", ItemOutcome.success 0 0⟩ : InputItem)].length) - 1 ≤
        progressPercent ([(⟨"a.jpg", ItemOutcome.success 0 0⟩ : InputItem)].length) i ∧
      progressPercent ([(⟨"a.jpg", ItemOutcome.success 0 0⟩ : InputItem)].length) i ≤
        (i + 1) * 100 / ([(⟨"a.jpg", ItemOutcome.success 0 0⟩ : InputItem)].length)) ∧
    (100 ∈ (run [⟨"a.jpg", ItemOutcome.success 0 0⟩] none).filterMap progressOf ↔
      (procSeg none 0 [⟨"a.jpg", ItemOutcome.success 0 0⟩]).length =
        ([(⟨"a.jpg", ItemOutcome.success 0 0⟩ : InputItem)].length)) :=
  progress_values_binary64 [⟨"a.jpg", ItemOutcome.success 0 0⟩] none (by decide) (by decide)
